import Mathlib

/-!
Verification of the catalog core of the cvmfs repository: the hardlinks
field encoding (dirent.h), the SQL statement layer of the catalog database
(catalog_sql.cc), and the entry LRU cache (lru_cache.h), embedded shallowly
and checked against the natural language specification.
-/

namespace Catalog

/-- Two to the 32: the width of one half of the 64 bit hardlinks field. -/
def word32 : Nat := 2 ^ 32

/-- Two to the 64: the width of the whole hardlinks field. -/
def word64 : Nat := 2 ^ 64

/-- Source `DirectoryEntry::set_hardlinks` (dirent.h): packs the hardlink group id
into the high 32 bits and the link count into the low 32 bits of the 64 bit
hardlinks field; both arguments are uint32 values, kept below `2 ^ 32` by
hypotheses in the theorems. -/
def set_hardlinks (hardlink_group linkcount : Nat) : Nat :=
  (hardlink_group <<< 32) ||| linkcount

/-- Source `DirectoryEntry::Hardlinks2Linkcount` (dirent.h): a raw value of 0
decodes to link count 1 (ordinary file); otherwise the uint64 expression
`(hardlinks << 32) >> 32`, where the left shift wraps modulo `2 ^ 64`. -/
def Hardlinks2Linkcount (hardlinks : Nat) : Nat :=
  if hardlinks = 0 then 1 else ((hardlinks <<< 32) % word64) >>> 32

/-- Source `DirectoryEntry::Hardlinks2HardlinkGroup` (dirent.h): `hardlinks >> 32`
on uint64. -/
def Hardlinks2HardlinkGroup (hardlinks : Nat) : Nat :=
  hardlinks >>> 32

theorem word64_eq : word64 = word32 * word32 := by
  unfold word32 word64; norm_num

/-- The uint64 expression `(v << 32) >> 32` extracts the low 32 bits. -/
theorem shift_extract_low (v : Nat) : ((v <<< 32) % word64) >>> 32 = v % word32 := by
  rw [Nat.shiftLeft_eq, Nat.shiftRight_eq_div_pow, word64_eq]
  show v * word32 % (word32 * word32) / word32 = v % word32
  rw [Nat.mul_mod_mul_right, Nat.mul_div_cancel _ (by unfold word32; positivity)]

theorem Hardlinks2Linkcount_eq (v : Nat) :
    Hardlinks2Linkcount v = if v = 0 then 1 else v % word32 := by
  unfold Hardlinks2Linkcount
  rw [shift_extract_low]

theorem Hardlinks2HardlinkGroup_eq (v : Nat) :
    Hardlinks2HardlinkGroup v = v / word32 := by
  unfold Hardlinks2HardlinkGroup word32
  exact Nat.shiftRight_eq_div_pow v 32

theorem set_hardlinks_eq (g n : Nat) (hn : n < word32) :
    set_hardlinks g n = word32 * g + n := by
  unfold set_hardlinks
  rw [Nat.shiftLeft_eq, Nat.mul_comm]
  exact (Nat.mul_add_lt_is_or hn g).symm

theorem word32_pos : 0 < word32 := by unfold word32; positivity

/-- C4: the hardlinks field packs the group id in the high 32 bits and the
link count in the low 32 bits: for 32 bit `g` and `n`,
`Hardlinks2HardlinkGroup (set_hardlinks g n) = g` always,
`Hardlinks2Linkcount (set_hardlinks g n) = n` whenever `(g, n) ≠ (0, 0)`,
and the raw value 0 decodes to group id 0 and link count 1. -/
theorem hardlinks_pack_decode (g n : Nat) (hg : g < word32) (hn : n < word32) :
    Hardlinks2HardlinkGroup (set_hardlinks g n) = g ∧
    (¬(g = 0 ∧ n = 0) → Hardlinks2Linkcount (set_hardlinks g n) = n) ∧
    Hardlinks2HardlinkGroup 0 = 0 ∧ Hardlinks2Linkcount 0 = 1 := by
  refine ⟨?_, ?_, by rw [Hardlinks2HardlinkGroup_eq, Nat.zero_div],
    by rw [Hardlinks2Linkcount_eq]; simp⟩
  · rw [Hardlinks2HardlinkGroup_eq, set_hardlinks_eq g n hn,
      Nat.mul_add_div word32_pos, Nat.div_eq_of_lt hn, Nat.add_zero]
  · intro hne
    have hv : word32 * g + n ≠ 0 := by
      intro h
      rcases Nat.eq_zero_of_add_eq_zero h with ⟨h1, h2⟩
      rcases Nat.mul_eq_zero.mp h1 with h0 | h0
      · exact absurd h0 (Nat.pos_iff_ne_zero.mp word32_pos)
      · exact hne ⟨h0, h2⟩
    rw [Hardlinks2Linkcount_eq, set_hardlinks_eq g n hn, if_neg hv,
      Nat.mul_add_mod, Nat.mod_eq_of_lt hn]

/-- C4 witness: evaluation at group id 7 and link count 3, and at the edge
pair `(g, n) = (3, 0)`. -/
theorem hardlinks_pack_decode_witness :
    Hardlinks2HardlinkGroup (set_hardlinks 7 3) = 7 ∧
    (¬(7 = 0 ∧ 3 = 0) → Hardlinks2Linkcount (set_hardlinks 7 3) = 3) ∧
    Hardlinks2HardlinkGroup 0 = 0 ∧ Hardlinks2Linkcount 0 = 1 :=
  hardlinks_pack_decode 7 3 (by norm_num [word32]) (by norm_num [word32])

/-!
## Symlink variable expansion

`SqlDirent::ExpandSymlink` (catalog_sql.cc) scans the raw symlink target —
a character buffer `c .. cEnd` where `cEnd` points at the terminating NUL
byte, which the loops visit as well (`c <= cEnd`) — and rewrites `$(VAR)`
substrings using `getenv`.  The environment is modelled as a partial map
from variable names to values; `getenv` returning NULL is `none`.
-/

/-- The byte the C scan reads at position `i` of the buffer holding `s`:
the character itself inside the string, the terminating NUL at `s.length`. -/
def charAt (s : List Char) (i : Nat) : Char :=
  s.getD i (Char.ofNat 0)

/-- The scan `while (rpar <= cEnd) { if (*rpar == ')') ...; rpar++; }` of
ExpandSymlink, started at position `j`: the offset from `j` of the first
right parenthesis at a position in `j .. s.length`, or `none` when the
right parenthesis is missing. -/
def findRparOff (s : List Char) (j : Nat) : Option Nat :=
  (List.range (s.length + 1 - j)).find? (fun off => charAt s (j + off) = ')')

/-- The main loop of `SqlDirent::ExpandSymlink` after the label
`expand_symlink`, at position `i` with the bytes appended to `result` so
far in `acc`.  One fuel unit per iteration; every step advances `i`, so
`s.length + 1` fuel runs the loop to completion.

* A `$` at `i` with `i + 2 < s.length` (the pointer test `c < cEnd-2`) and
  `(` at `i + 1` starts an expansion: `c += 2`, then the right parenthesis
  is searched from there.
* Right parenthesis missing: `result.Append("$(", 2); continue;` — the
  `continue` runs the `++c` of the for loop, so the loop resumes at
  `i + 3`, one past the position `i + 2` that `c` held.
* Right parenthesis at offset `off`: the variable name is the slice
  between, its value (empty for an unset variable) is appended, and
  `c = rpar+1; continue;` resumes the loop at `rpar + 2` after the `++c`.
* Any other byte, the final NUL included, is copied and the loop moves on
  by one. -/
def expandLoop (env : List Char → Option (List Char)) (s : List Char) :
    Nat → Nat → List Char → List Char
  | 0, _, acc => acc
  | fuel + 1, i, acc =>
    if i > s.length then acc
    else if charAt s i = '$' ∧ i + 2 < s.length ∧ charAt s (i + 1) = '(' then
      match findRparOff s (i + 2) with
      | none => expandLoop env s fuel (i + 3) (acc ++ ['$', '('])
      | some off =>
          expandLoop env s fuel (i + 2 + off + 2)
            (acc ++ ((env ((s.drop (i + 2)).take off)).getD []))
    else expandLoop env s fuel (i + 1) (acc ++ [charAt s i])

/-- Source `SqlDirent::ExpandSymlink` (catalog_sql.cc): the first loop scans
positions `0 .. length` for a `$`; if none is found the target is returned
unchanged, otherwise control jumps to `expand_symlink` with `c` still at
that first `$` and `result` freshly empty, and the main loop produces the
bytes of the new target. -/
def ExpandSymlink (env : List Char → Option (List Char)) (s : List Char) :
    List Char :=
  match (List.range (s.length + 1)).find? (fun i => charAt s i = '$') with
  | none => s
  | some i => expandLoop env s (s.length + 1) i []

/-!
## The catalog table and SQLite integer semantics

A row of the `catalog` table (catalog_sql.cc, `Database::Create` and
`SqlLookup::GetFieldsToSelect`).  The `inode` column stores the 64 bit
hardlinks field of the entry (the quirky legacy layout noted in
`SqlDirentWrite::BindDirentFields`); `rowid` is the implicit SQLite row
identifier.  SQLite stores column integers as signed 64 bit values: a
stored word `v < 2 ^ 64` is read back as `toSigned64 v`, and `<<`, `>>`
(arithmetic) and `+` operate on those signed values with two complement
wrap around, which `toWord64` maps back to the stored word.
-/

structure CatalogRow where
  md5path_1 : Nat
  md5path_2 : Nat
  parent_1 : Nat
  parent_2 : Nat
  hash : List Nat
  inode : Nat
  size : Nat
  mode : Nat
  mtime : Nat
  flags : Nat
  name : List Char
  symlink : List Char
  rowid : Nat

/-- The signed 64 bit value a stored word denotes. -/
def toSigned64 (v : Nat) : Int :=
  if v < 2 ^ 63 then (v : Int) else (v : Int) - word64

/-- The stored word of a signed 64 bit result (two complement wrap). -/
def toWord64 (x : Int) : Nat :=
  (x % (word64 : Int)).toNat

/-- The scrutinee `(inode << 32) >> 32` of `SqlIncLinkcount`: the left
shift keeps the low 64 bits of the doubled word, the right shift is
arithmetic (sign extending) on the signed value, i.e. floor division by
`2 ^ 32`. -/
def caseScrutinee (v : Nat) : Int :=
  (toSigned64 ((v * 2 ^ 32) % word64)).fdiv (2 ^ 32)

/-- The per row effect of the `SqlIncLinkcount` UPDATE on the `inode`
column: `CASE (inode << 32) >> 32 WHEN 2 THEN 0 ELSE inode+1*(:delta) END`. -/
def sqlIncLinkcountRow (delta : Int) (v : Nat) : Nat :=
  if caseScrutinee v = 2 then 0 else toWord64 (toSigned64 v + delta)

/-- The scalar subquery `SELECT inode from catalog WHERE md5path_1 = :md5_1
AND md5path_2 = :md5_2`: the `inode` value of the row keyed by the path
hash (the primary key makes it unique), `none` when absent (NULL). -/
def selectedInode (hash1 hash2 : Nat) (tbl : List CatalogRow) : Option Nat :=
  (tbl.find? (fun r => r.md5path_1 == hash1 && r.md5path_2 == hash2)).map (·.inode)

/-- Source `SqlIncLinkcount` (catalog_sql.cc): the UPDATE touches every row whose
`inode` column equals the subquery result (comparison with NULL matches no
row) and rewrites it by `sqlIncLinkcountRow`. -/
def SqlIncLinkcount (delta : Int) (hash1 hash2 : Nat) (tbl : List CatalogRow) :
    List CatalogRow :=
  match selectedInode hash1 hash2 tbl with
  | none => tbl
  | some sel =>
      tbl.map (fun r =>
        if r.inode = sel then { r with inode := sqlIncLinkcountRow delta r.inode }
        else r)

theorem toWord64_toSigned64_add (v : Nat) (delta : Int) :
    toWord64 (toSigned64 v + delta) = toWord64 ((v : Int) + delta) := by
  unfold toWord64 toSigned64 word64
  split
  · rfl
  · congr 1
    omega

theorem caseScrutinee_eq_two_iff (v : Nat) :
    caseScrutinee v = 2 ↔ Hardlinks2Linkcount v = 2 := by
  have hmod : (v * 2 ^ 32) % word64 = (v % 2 ^ 32) * 2 ^ 32 := by
    rw [word64_eq]
    show v * word32 % (word32 * word32) = v % word32 * word32
    rw [Nat.mul_mod_mul_right]
  have hlc : Hardlinks2Linkcount v = 2 ↔ v % 2 ^ 32 = 2 := by
    rw [Hardlinks2Linkcount_eq]
    rcases eq_or_ne v 0 with h0 | h0
    · subst h0; simp
    · rw [if_neg h0]; rfl
  rw [hlc]
  unfold caseScrutinee
  rw [hmod]
  have ha : v % 2 ^ 32 < 2 ^ 32 := Nat.mod_lt v (by positivity)
  set a := v % 2 ^ 32 with hadef
  unfold toSigned64 word64
  by_cases hsmall : a < 2 ^ 31
  · rw [if_pos (by push_cast; omega)]
    have : ((a * 2 ^ 32 : Nat) : Int) = (a : Int) * 2 ^ 32 := by push_cast; ring
    rw [this, Int.mul_fdiv_cancel _ (by norm_num)]
    constructor
    · intro h; exact_mod_cast h
    · intro h; exact_mod_cast congrArg (Nat.cast : Nat → Int) h
  · rw [if_neg (by push_cast; omega)]
    have : ((a * 2 ^ 32 : Nat) : Int) - ((2 ^ 64 : Nat) : Int)
        = ((a : Int) - 2 ^ 32) * 2 ^ 32 := by
      push_cast; ring
    rw [this, Int.mul_fdiv_cancel _ (by norm_num)]
    constructor
    · intro h; omega
    · intro h; omega

/-- C2 counterexample: two rows of hardlink group 5 with link count 2.
The claim says an increment (`delta = 1`) applied at link count 2 does not
clear the group, yielding group 5 and link count 3 on both rows; the
UPDATE tests only `(inode << 32) >> 32 = 2` and zeroes the whole field for
increments as well, so both rows decode to group 0, link count 1. -/
theorem SqlIncLinkcount_increment_clears_cex :
    (SqlIncLinkcount 1 1 0
        [{ md5path_1 := 1, md5path_2 := 0, parent_1 := 0, parent_2 := 0,
           hash := [], inode := 5 * 2 ^ 32 + 2, size := 0, mode := 0,
           mtime := 0, flags := 0, name := [], symlink := [], rowid := 1 },
         { md5path_1 := 2, md5path_2 := 0, parent_1 := 0, parent_2 := 0,
           hash := [], inode := 5 * 2 ^ 32 + 2, size := 0, mode := 0,
           mtime := 0, flags := 0, name := [], symlink := [], rowid := 2 }]).map
      (fun r => (Hardlinks2HardlinkGroup r.inode, Hardlinks2Linkcount r.inode))
      = [(0, 1), (0, 1)] ∧
    ¬ (SqlIncLinkcount 1 1 0
        [{ md5path_1 := 1, md5path_2 := 0, parent_1 := 0, parent_2 := 0,
           hash := [], inode := 5 * 2 ^ 32 + 2, size := 0, mode := 0,
           mtime := 0, flags := 0, name := [], symlink := [], rowid := 1 },
         { md5path_1 := 2, md5path_2 := 0, parent_1 := 0, parent_2 := 0,
           hash := [], inode := 5 * 2 ^ 32 + 2, size := 0, mode := 0,
           mtime := 0, flags := 0, name := [], symlink := [], rowid := 2 }]).map
      (fun r => (Hardlinks2HardlinkGroup r.inode, Hardlinks2Linkcount r.inode))
      = [(5, 3), (5, 3)] := by
  constructor
  · decide
  · decide

/-- C2 as amended: the mutation adjusts the hardlinks field of every row
sharing the keyed row hardlinks value (by the group invariant, the whole
hardlink group) by `delta`, except that the whole field is zeroed — group
id cleared to 0 — exactly when the link count before the operation is 2,
for increments as well as decrements. -/
theorem SqlIncLinkcount_clears_at_linkcount_two (delta : Int)
    (hash1 hash2 : Nat) (tbl : List CatalogRow) :
    SqlIncLinkcount delta hash1 hash2 tbl = tbl.map (fun r =>
      if selectedInode hash1 hash2 tbl = some r.inode then
        { r with inode := if Hardlinks2Linkcount r.inode = 2 then 0
                          else toWord64 ((r.inode : Int) + delta) }
      else r) := by
  unfold SqlIncLinkcount
  cases hsel : selectedInode hash1 hash2 tbl with
  | none => simp
  | some sel =>
    apply List.map_congr_left
    intro r hr
    by_cases h : r.inode = sel
    · rw [if_pos h, if_pos (by rw [h])]
      congr 1
      unfold sqlIncLinkcountRow
      rw [toWord64_toSigned64_add]
      rcases (caseScrutinee_eq_two_iff r.inode) with ⟨h1, h2⟩
      by_cases hc : Hardlinks2Linkcount r.inode = 2
      · rw [if_pos (h2 hc), if_pos hc]
      · rw [if_neg (fun hx => hc (h1 hx)), if_neg hc]
    · rw [if_neg h, if_neg (by intro hx; exact h (Option.some_injective _ hx).symm)]

/-- The aggregate `SELECT max(inode) FROM catalog`
(`SqlMaxHardlinkGroup`): NULL on an empty table, otherwise the stored word
whose signed 64 bit value is largest (SQLite compares column integers as
signed values). -/
def sqlMaxInode (tbl : List CatalogRow) : Option Nat :=
  match tbl.map (·.inode) with
  | [] => none
  | v :: rest =>
      some (rest.foldl (fun acc w => if toSigned64 acc < toSigned64 w then w else acc) v)

/-- Source `SqlMaxHardlinkGroup::GetMaxGroupId`: `RetrieveInt64(0) >> 32` — the
int64 aggregate result (0 for NULL), shifted arithmetically right by 32,
converted to the uint32 return type. -/
def GetMaxGroupId (tbl : List CatalogRow) : Nat :=
  match sqlMaxInode tbl with
  | none => 0
  | some m => (((toSigned64 m).fdiv (2 ^ 32)) % (word32 : Int)).toNat

/-- A catalog row whose only populated columns are the first path hash half
and the hardlinks carrying `inode` column (the columns the hardlink
statements read). -/
def hlRow (hash1 inodeVal : Nat) : CatalogRow :=
  { md5path_1 := hash1, md5path_2 := 0, parent_1 := 0, parent_2 := 0,
    hash := [], inode := inodeVal, size := 0, mode := 0, mtime := 0,
    flags := 0, name := [], symlink := [], rowid := hash1 }

/-- C6 counterexample: over the stored words `{5, 2 ^ 63}` — group ids 0
and `2 ^ 31` — the signed aggregate picks 5 (the word `2 ^ 63` reads back
as the negative `-2 ^ 63`), so the query returns group id 0, not the
maximum `2 ^ 31`, and the fresh id 0 + 1 is not above every present group
id. -/
theorem getMaxGroupId_signed_cex :
    GetMaxGroupId [hlRow 1 5, hlRow 2 (2 ^ 63)] = 0 ∧
    ¬ ((List.map (fun r => Hardlinks2HardlinkGroup r.inode)
          [hlRow 1 5, hlRow 2 (2 ^ 63)]).foldl max 0
        = GetMaxGroupId [hlRow 1 5, hlRow 2 (2 ^ 63)]) ∧
    ¬ (∀ r ∈ [hlRow 1 5, hlRow 2 (2 ^ 63)],
        Hardlinks2HardlinkGroup r.inode < GetMaxGroupId [hlRow 1 5, hlRow 2 (2 ^ 63)] + 1) := by
  refine ⟨by decide, by decide, by decide⟩

theorem foldl_signed_max_eq (rest : List Nat) :
    ∀ v : Nat, v < 2 ^ 63 → (∀ w ∈ rest, w < 2 ^ 63) →
      rest.foldl (fun acc w => if toSigned64 acc < toSigned64 w then w else acc) v
        = rest.foldl max v := by
  induction rest with
  | nil => intro v _ _; rfl
  | cons w ws ih =>
    intro v hv hrest
    have hw : w < 2 ^ 63 := hrest w (List.mem_cons_self w ws)
    have hstep : (if toSigned64 v < toSigned64 w then w else v) = max v w := by
      unfold toSigned64
      rw [if_pos hv, if_pos hw]
      rcases Nat.lt_or_ge v w with h | h
      · rw [if_pos (by exact_mod_cast h), Nat.max_eq_right (Nat.le_of_lt h)]
      · rw [if_neg (by exact_mod_cast Nat.not_lt.mpr h), Nat.max_eq_left h]
    simp only [List.foldl_cons, hstep]
    exact ih (max v w) (by omega) (fun x hx => hrest x (List.mem_cons_of_mem w hx))

theorem foldl_max_lt (rest : List Nat) :
    ∀ v b : Nat, v < b → (∀ w ∈ rest, w < b) → rest.foldl max v < b := by
  induction rest with
  | nil => intro v b hv _; exact hv
  | cons w ws ih =>
    intro v b hv hrest
    simp only [List.foldl_cons]
    exact ih (max v w) b
      (by have := hrest w (List.mem_cons_self w ws); omega)
      (fun x hx => hrest x (List.mem_cons_of_mem w hx))

theorem max_div_distrib (a b c : Nat) : max a b / c = max (a / c) (b / c) := by
  rcases Nat.le_total a b with h | h
  · rw [Nat.max_eq_right h, Nat.max_eq_right (Nat.div_le_div_right h)]
  · rw [Nat.max_eq_left h, Nat.max_eq_left (Nat.div_le_div_right h)]

theorem foldl_max_div (rest : List Nat) :
    ∀ v c : Nat, (rest.foldl max v) / c = (rest.map (· / c)).foldl max (v / c) := by
  induction rest with
  | nil => intro v c; rfl
  | cons w ws ih =>
    intro v c
    simp only [List.foldl_cons, List.map_cons]
    rw [ih (max v w) c, max_div_distrib]

theorem le_foldl_max (l : List Nat) :
    ∀ a : Nat, a ≤ l.foldl max a ∧ ∀ x ∈ l, x ≤ l.foldl max a := by
  induction l with
  | nil => intro a; exact ⟨Nat.le_refl a, by simp⟩
  | cons y ys ih =>
    intro a
    simp only [List.foldl_cons]
    obtain ⟨h1, h2⟩ := ih (max a y)
    refine ⟨Nat.le_trans (Nat.le_max_left a y) h1, ?_⟩
    intro x hx
    rcases List.mem_cons.mp hx with rfl | hx
    · exact Nat.le_trans (Nat.le_max_right a x) h1
    · exact h2 x hx

/-- C6 as amended: as long as every stored hardlinks word is below
`2 ^ 63` (every group id below `2 ^ 31`, so the signed and unsigned orders
agree), the query returns the maximum group id over the rows of the
table, and the fresh id max + 1 allocated for AddHardlinkGroup is strictly
greater than every group id present. -/
theorem getMaxGroupId_correct (tbl : List CatalogRow) (hne : tbl ≠ [])
    (hb : ∀ r ∈ tbl, r.inode < 2 ^ 63) :
    GetMaxGroupId tbl
      = (tbl.map (fun r => Hardlinks2HardlinkGroup r.inode)).foldl max 0 ∧
    ∀ r ∈ tbl, Hardlinks2HardlinkGroup r.inode < GetMaxGroupId tbl + 1 := by
  cases htbl : tbl with
  | nil => exact absurd htbl hne
  | cons r0 rs =>
    subst htbl
    have hb0 : r0.inode < 2 ^ 63 := hb r0 (List.mem_cons_self r0 rs)
    have hbs : ∀ w ∈ rs.map (·.inode), w < 2 ^ 63 := by
      intro w hw
      obtain ⟨r, hr, rfl⟩ := List.mem_map.mp hw
      exact hb r (List.mem_cons_of_mem r0 hr)
    have hmax :
        sqlMaxInode (r0 :: rs) = some ((rs.map (·.inode)).foldl max r0.inode) := by
      unfold sqlMaxInode
      simp only [List.map_cons]
      rw [foldl_signed_max_eq (rs.map (·.inode)) r0.inode hb0 hbs]
    set M := (rs.map (·.inode)).foldl max r0.inode with hMdef
    have hMlt : M < 2 ^ 63 := foldl_max_lt (rs.map (·.inode)) r0.inode (2 ^ 63) hb0 hbs
    have hgmgi : GetMaxGroupId (r0 :: rs) = M / 2 ^ 32 := by
      unfold GetMaxGroupId
      rw [hmax]
      show (((toSigned64 M).fdiv (2 ^ 32)) % (word32 : Int)).toNat = M / 2 ^ 32
      unfold toSigned64
      rw [if_pos hMlt]
      rw [show ((2 : Int) ^ 32) = ((2 ^ 32 : Nat) : Int) by norm_cast]
      rw [← Int.ofNat_fdiv]
      have hq : (M / 2 ^ 32 : Nat) < word32 := by
        unfold word32
        omega
      rw [Int.emod_eq_of_lt (by positivity) (by exact_mod_cast hq)]
      exact Int.toNat_natCast _
    have hgr : ∀ r : CatalogRow, r.inode / 2 ^ 32 = Hardlinks2HardlinkGroup r.inode := by
      intro r
      rw [Hardlinks2HardlinkGroup_eq]
      rfl
    have hdiv :
        M / 2 ^ 32
          = ((r0 :: rs).map (fun r => Hardlinks2HardlinkGroup r.inode)).foldl max 0 := by
      rw [hMdef, foldl_max_div]
      simp only [List.map_cons, List.foldl_cons, Nat.zero_max, List.map_map]
      rw [hgr r0]
      congr 1
      exact List.map_congr_left (fun r _ => hgr r)
    refine ⟨by rw [hgmgi, hdiv], ?_⟩
    intro r hr
    rw [hgmgi, Hardlinks2HardlinkGroup_eq]
    have hle : r.inode ≤ M := by
      rcases List.mem_cons.mp hr with rfl | hr
      · exact (le_foldl_max (rs.map (·.inode)) r.inode).1
      · exact (le_foldl_max (rs.map (·.inode)) r0.inode).2 r.inode
          (List.mem_map.mpr ⟨r, hr, rfl⟩)
    have hdivle : r.inode / word32 ≤ M / word32 := Nat.div_le_div_right hle
    unfold word32 at hdivle ⊢
    omega

/-- C6 witness: a two row catalog with group ids 3 and 9. -/
theorem getMaxGroupId_correct_witness :
    GetMaxGroupId [hlRow 1 (3 * 2 ^ 32 + 2), hlRow 2 (9 * 2 ^ 32 + 2)]
      = (List.map (fun r => Hardlinks2HardlinkGroup r.inode)
          [hlRow 1 (3 * 2 ^ 32 + 2), hlRow 2 (9 * 2 ^ 32 + 2)]).foldl max 0 ∧
    ∀ r ∈ [hlRow 1 (3 * 2 ^ 32 + 2), hlRow 2 (9 * 2 ^ 32 + 2)],
      Hardlinks2HardlinkGroup r.inode
        < GetMaxGroupId [hlRow 1 (3 * 2 ^ 32 + 2), hlRow 2 (9 * 2 ^ 32 + 2)] + 1 :=
  getMaxGroupId_correct [hlRow 1 (3 * 2 ^ 32 + 2), hlRow 2 (9 * 2 ^ 32 + 2)]
    (List.cons_ne_nil _ _) (by decide)

/-- A reader process environment holding exactly `FOO=bar`, as in the spec
boundary examples; `MISSING` (and every other name) is unset. -/
def envFOO : List Char → Option (List Char) :=
  fun v => if v = ['F', 'O', 'O'] then some ['b', 'a', 'r'] else none

/-- C1: evaluation of ExpandSymlink at the claim example. The claim says
the target `"$(unterminated"` is preserved verbatim; the code instead
emits `"$("`, then resumes one position too far (the `continue` after
`result.Append` runs the `++c` of the for loop on top of `c += 2`), so
the byte right after `"$("` — here the letter u — is dropped, and the
terminating NUL is copied into the result.  The result holds for every
environment; it is stated for the empty one. -/
theorem expandSymlink_unterminated_drops_byte :
    ExpandSymlink (fun _ => none) "$(unterminated".toList =
      "$(nterminated".toList ++ [Char.ofNat 0] ∧
    "$(nterminated".toList ++ [Char.ofNat 0] ≠ "$(unterminated".toList := by
  constructor
  · decide
  · decide

/-- C5: evaluation of ExpandSymlink on matched `$(VAR)` targets with
`FOO=bar` and `MISSING` unset.  The two boundary examples of the spec come
out as claimed, but the universal statement fails: the byte immediately
after a substituted `$(VAR)` is dropped (`c = rpar+1` followed by the
`++c` of the for loop skips one position), so `"$(FOO)x"` yields
`"bar"` plus the copied NUL instead of `"barx"`, and every byte before
the first `$` is dropped as well (`result` starts empty at the first
`$`), so `"a$(FOO)"` yields `"bar"` instead of `"abar"`. -/
theorem expandSymlink_matched_drops_bytes :
    ExpandSymlink envFOO "$(FOO)".toList = "bar".toList ∧
    ExpandSymlink envFOO "$(MISSING)".toList = [] ∧
    ExpandSymlink envFOO "$(FOO)x".toList = "bar".toList ++ [Char.ofNat 0] ∧
    ExpandSymlink envFOO "a$(FOO)".toList = "bar".toList := by
  refine ⟨by decide, by decide, by decide, by decide⟩

/-!
## Flags, the in-memory directory entry, and row read-out
-/

/-- Modelled from the spec: the on disk flag bits of `SqlDirent`
(catalog_sql.h, which is not among the sources; §6.3 fixes the values:
kFlagDir = 1, kFlagFile = 2, kFlagLink = 4, kFlagDirNestedRoot = 8,
kFlagDirNestedMountpoint = 16). -/
def kFlagDir : Nat := 1

def kFlagFile : Nat := 2

def kFlagLink : Nat := 4

def kFlagDirNestedRoot : Nat := 8

def kFlagDirNestedMountpoint : Nat := 16

/-- POSIX file type mask and codes used by the `S_ISDIR` / `S_ISLNK` /
`S_ISREG` macros that dirent.h wraps. -/
def S_IFMT : Nat := 0xF000

def S_IFDIR : Nat := 0x4000

def S_IFLNK : Nat := 0xA000

def S_IFREG : Nat := 0x8000

/-- Source `catalog::DirectoryEntry` (dirent.h), its members in declaration
order.  The `Catalog*` back pointer is modelled as the pointer word:
0 is NULL, -1 the negative sentinel `(Catalog *)(-1)`. -/
structure DirectoryEntry where
  catalogPtr : Int
  name : List Char
  inode : Nat
  parentInode : Nat
  hardlinks : Nat
  mode : Nat
  uid : Nat
  gid : Nat
  size : Nat
  mtime : Int
  cachedMtime : Int
  symlink : List Char
  checksum : List Nat
  isNestedCatalogRoot : Bool
  isNestedCatalogMountpoint : Bool

/-- Source `kInvalidInode = 0` (dirent.h). -/
def kInvalidInode : Nat := 0

/-- Source `DirectoryEntry::IsDirectory`: `S_ISDIR(mode_)`. -/
def IsDirectory (e : DirectoryEntry) : Bool :=
  e.mode &&& S_IFMT == S_IFDIR

/-- Source `DirectoryEntry::IsLink`: `S_ISLNK(mode_)`. -/
def IsLink (e : DirectoryEntry) : Bool :=
  e.mode &&& S_IFMT == S_IFLNK

/-- Source `DirectoryEntry::IsRegular`: `S_ISREG(mode_)`. -/
def IsRegular (e : DirectoryEntry) : Bool :=
  e.mode &&& S_IFMT == S_IFREG

/-- Source `SpecialDirents` (dirent.h). -/
inductive SpecialDirents where
  | kDirentNormal
  | kDirentNegative
deriving DecidableEq

/-- The zero argument `DirectoryEntry()` constructor: NULL catalog pointer,
invalid inodes, zeroed fields, cleared markers, empty strings. -/
def DirectoryEntryDefault : DirectoryEntry :=
  { catalogPtr := 0, name := [], inode := kInvalidInode,
    parentInode := kInvalidInode, hardlinks := 0, mode := 0, uid := 0,
    gid := 0, size := 0, mtime := 0, cachedMtime := 0, symlink := [],
    checksum := [], isNestedCatalogRoot := false,
    isNestedCatalogMountpoint := false }

/-- The `DirectoryEntry(SpecialDirents special_type)` constructor: its
initializer list sets only `catalog_((Catalog *)(-1))`; the argument is
never read and every other member is left uninitialized, modelled by the
arbitrary `rest`. -/
def DirectoryEntrySpecial (specialType : SpecialDirents) (rest : DirectoryEntry) :
    DirectoryEntry :=
  { rest with catalogPtr := -1 }

/-- Source `DirectoryEntry::GetSpecial`: negative exactly when the catalog
pointer is the -1 sentinel. -/
def GetSpecial (e : DirectoryEntry) : SpecialDirents :=
  if e.catalogPtr = -1 then SpecialDirents.kDirentNegative
  else SpecialDirents.kDirentNormal

/-- C10: the SpecialDirents constructor ignores its argument and always
yields a negative entry — `DirectoryEntry(kDirentNormal)` included — while
a default constructed entry is normal. -/
theorem directoryEntry_special_always_negative (specialType : SpecialDirents)
    (rest : DirectoryEntry) :
    GetSpecial (DirectoryEntrySpecial specialType rest)
        = SpecialDirents.kDirentNegative ∧
    GetSpecial (DirectoryEntrySpecial SpecialDirents.kDirentNormal rest)
        = SpecialDirents.kDirentNegative ∧
    GetSpecial DirectoryEntryDefault = SpecialDirents.kDirentNormal := by
  refine ⟨rfl, rfl, rfl⟩

/-- Source `SqlDirent::CreateDatabaseFlags` (catalog_sql.cc): the nested root
marker wins over the mountpoint marker (else if), then exactly one type
encoding is added: `kFlagDir`, `kFlagFile | kFlagLink`, or `kFlagFile`. -/
def CreateDatabaseFlags (entry : DirectoryEntry) : Nat :=
  let f1 := if entry.isNestedCatalogRoot then 0 ||| kFlagDirNestedRoot
            else if entry.isNestedCatalogMountpoint then 0 ||| kFlagDirNestedMountpoint
            else 0
  if IsDirectory entry then f1 ||| kFlagDir
  else if IsLink entry then f1 ||| (kFlagFile ||| kFlagLink)
  else f1 ||| kFlagFile

/-- C8: the marshalled flags never hold both nested flags at once (even
when both in-memory markers are set), and exactly one type encoding is
present: `kFlagDir` for directories, `kFlagFile | kFlagLink` for symlinks,
`kFlagFile` alone otherwise. -/
theorem createDatabaseFlags_wellformed (entry : DirectoryEntry) :
    ¬(CreateDatabaseFlags entry &&& kFlagDirNestedRoot ≠ 0 ∧
      CreateDatabaseFlags entry &&& kFlagDirNestedMountpoint ≠ 0) ∧
    (if IsDirectory entry then
        CreateDatabaseFlags entry &&& (kFlagDir ||| kFlagFile ||| kFlagLink) = kFlagDir
     else if IsLink entry then
        CreateDatabaseFlags entry &&& (kFlagDir ||| kFlagFile ||| kFlagLink)
          = kFlagFile ||| kFlagLink
     else CreateDatabaseFlags entry &&& (kFlagDir ||| kFlagFile ||| kFlagLink)
          = kFlagFile) := by
  cases hr : entry.isNestedCatalogRoot <;>
    cases hm : entry.isNestedCatalogMountpoint <;>
    cases hd : IsDirectory entry <;>
    cases hl : IsLink entry <;>
    simp only [CreateDatabaseFlags, hr, hm, hd, hl, if_true, if_false,
      Bool.false_eq_true, Bool.true_eq_false] <;>
    decide

/-- Modelled from the spec: `Catalog::GetMangledInode` lives in catalog.h
and catalog.cc, which are not among the sources.  Per §4.2 the in-catalog
inode is computed from the row identifier plus the inode offset of the
catalog, with the hardlink group occupying the high 32 bits. -/
def GetMangledInode (inodeOffset rowid hardlinkGroup : Nat) : Nat :=
  (hardlinkGroup <<< 32) ||| (rowid + inodeOffset)

/-- What `SqlLookup::GetDirent` assigns on the result entry.  The tree is
mid refactor: catalog_sql.cc still writes a plain `linkcount_` member
while dirent.h already packs `hardlinks_`, so the read-out record is
modelled with the fields GetDirent assigns (the catalog back pointer
aside). -/
structure SqlDirentResult where
  isNestedCatalogRoot : Bool
  isNestedCatalogMountpoint : Bool
  parentInode : Nat
  inode : Nat
  linkcount : Nat
  mode : Nat
  size : Nat
  mtime : Nat
  checksum : List Nat
  name : List Char
  symlink : List Char

/-- Source `SqlLookup::GetDirent` (catalog_sql.cc): reads the selected columns of
a row; on a catalog of schema below 2.0 the hardlinks column is ignored —
hardlink group 0 goes into the inode mangling and the link count is 1 —
while on schema 2.0 the column is decoded; the raw symlink is expanded
against the reader environment. -/
def GetDirent (schema : ℚ) (inodeOffset : Nat)
    (env : List Char → Option (List Char)) (row : CatalogRow) : SqlDirentResult :=
  { isNestedCatalogRoot := row.flags &&& kFlagDirNestedRoot != 0
    isNestedCatalogMountpoint := row.flags &&& kFlagDirNestedMountpoint != 0
    parentInode := kInvalidInode
    inode := GetMangledInode inodeOffset row.rowid
      (if schema < 2 then 0 else Hardlinks2HardlinkGroup row.inode)
    linkcount := if schema < 2 then 1 else Hardlinks2Linkcount row.inode
    mode := row.mode
    size := row.size
    mtime := row.mtime
    checksum := row.hash
    name := row.name
    symlink := ExpandSymlink env row.symlink }

/-- C7: reading a row from a catalog of schema below 2.0 yields link count
1 and hardlink group 0 (the group the inode mangling receives), whatever
the stored hardlinks column holds; on schema 2.0 the stored value is
decoded into both. -/
theorem getDirent_schema_hardlinks (schema : ℚ) (inodeOffset : Nat)
    (env : List Char → Option (List Char)) (row : CatalogRow) :
    (schema < 2 →
      (GetDirent schema inodeOffset env row).linkcount = 1 ∧
      (GetDirent schema inodeOffset env row).inode
        = GetMangledInode inodeOffset row.rowid 0) ∧
    (¬ schema < 2 →
      (GetDirent schema inodeOffset env row).linkcount
          = Hardlinks2Linkcount row.inode ∧
      (GetDirent schema inodeOffset env row).inode
        = GetMangledInode inodeOffset row.rowid
            (Hardlinks2HardlinkGroup row.inode)) := by
  constructor
  · intro h
    constructor <;> simp [GetDirent, h]
  · intro h
    constructor <;> simp [GetDirent, h]

/-- C7 witness: a schema 1.0 catalog row carrying hardlinks group 6, link
count 2: both decode to the compatibility values; the second implication
is discharged vacuously at schema 1. -/
theorem getDirent_schema_hardlinks_witness :
    ((1 : ℚ) < 2 →
      (GetDirent 1 100 (fun _ => none) (hlRow 3 (6 * 2 ^ 32 + 2))).linkcount = 1 ∧
      (GetDirent 1 100 (fun _ => none) (hlRow 3 (6 * 2 ^ 32 + 2))).inode
        = GetMangledInode 100 (hlRow 3 (6 * 2 ^ 32 + 2)).rowid 0) ∧
    (¬ (1 : ℚ) < 2 →
      (GetDirent 1 100 (fun _ => none) (hlRow 3 (6 * 2 ^ 32 + 2))).linkcount
          = Hardlinks2Linkcount (hlRow 3 (6 * 2 ^ 32 + 2)).inode ∧
      (GetDirent 1 100 (fun _ => none) (hlRow 3 (6 * 2 ^ 32 + 2))).inode
        = GetMangledInode 100 (hlRow 3 (6 * 2 ^ 32 + 2)).rowid
            (Hardlinks2HardlinkGroup (hlRow 3 (6 * 2 ^ 32 + 2)).inode)) :=
  getDirent_schema_hardlinks 1 100 (fun _ => none) (hlRow 3 (6 * 2 ^ 32 + 2))

end Catalog

namespace LruCache

/-!
## Entry LRU cache

`cvmfs::LruCache` (lru_cache.h) couples a map from keys to
`(list node, value)` pairs with an intrusive doubly linked list holding the
keys in recency order: `push_back` appends new entries at the back,
`touchEntry` moves a node to the back, `deleteOldestEntry` pops the front.
The pair is embedded as one association list carrying `(key, value)` pairs
in that list order — front at the head, most recently used at the end —
together with the `mMaxCacheSize` bound.  `mCurrentCacheSize` equals the
length of the list.
-/

/-- The state of one `cvmfs::LruCache`: the capacity `mMaxCacheSize` and
the live entries in LRU order (head = least recently used). -/
structure State (K V : Type) where
  maxSize : Nat
  entries : List (K × V)

variable {K V : Type} [DecidableEq K]

/-- The constructor `LruCache(maxCacheSize)`: empty map, lonely list head;
`assert(maxCacheSize > 0)` is a hypothesis of the theorems. -/
def init (K V : Type) (maxCacheSize : Nat) : State K V :=
  { maxSize := maxCacheSize, entries := [] }

/-- Source `lookupCache`: the map lookup that does not change the LRU order. -/
def lookupCache (s : State K V) (key : K) : Option V :=
  (s.entries.find? (fun p => p.1 = key)).map (·.2)

/-- Source `touchEntry` after `updateExistingEntry`: the node of `key` is moved to
the back of the LRU list, with `value` now stored for it. -/
def touchWith (s : State K V) (key : K) (value : V) : State K V :=
  { s with entries := s.entries.eraseP (fun p => decide (p.1 = key)) ++ [(key, value)] }

/-- Source `isFull`: `mCurrentCacheSize >= mMaxCacheSize`. -/
def isFull (s : State K V) : Prop :=
  s.entries.length ≥ s.maxSize

instance (s : State K V) : Decidable (isFull s) := by
  unfold isFull; infer_instance

/-- Source `deleteOldestEntry`: pop the front of the LRU list and erase that key
from the map (asserted non empty in the source). -/
def deleteOldestEntry (s : State K V) : State K V :=
  { s with entries := s.entries.tail }

/-- Source `insertNewEntry`: push the key to the back of the list and store the
entry (asserted not full in the source). -/
def insertNewEntry (s : State K V) (key : K) (value : V) : State K V :=
  { s with entries := s.entries ++ [(key, value)] }

/-- Source `LruCache::insert`: an existing key is updated and touched; otherwise
the oldest entry is evicted first when the cache is full, and the new
entry is pushed to the back. -/
def insert (s : State K V) (key : K) (value : V) : State K V :=
  if (s.entries.find? (fun p => p.1 = key)).isSome then
    touchWith s key value
  else if isFull s then
    insertNewEntry (deleteOldestEntry s) key value
  else
    insertNewEntry s key value

/-- Source `LruCache::lookup`: on a hit the entry is touched (promoted to most
recently used) and its value returned; on a miss the state is unchanged. -/
def lookup (s : State K V) (key : K) : Option V × State K V :=
  match s.entries.find? (fun p => p.1 = key) with
  | some p => (some p.2, touchWith s key p.2)
  | none => (none, s)

/-- Source `LruCache::drop`: empty the cache. -/
def dropAll (s : State K V) : State K V :=
  { s with entries := [] }

/-- The `while (mCurrentCacheSize > newSize) deleteOldestEntry();` loop of
`LruCache::resize`, as structural recursion on the entry list. -/
def resizeLoop (newSize : Nat) : List (K × V) → List (K × V)
  | [] => []
  | p :: rest => if (p :: rest).length > newSize then resizeLoop newSize rest
                 else p :: rest

/-- Source `LruCache::resize`: least recently used entries are evicted until the
count fits, then the new capacity is adopted (`assert(newSize > 0)` is a
hypothesis of the theorems). -/
def resize (s : State K V) (newSize : Nat) : State K V :=
  { maxSize := newSize, entries := resizeLoop newSize s.entries }

/-- C3: for a cache of capacity 2 and any values `A B C`, the sequence
`Insert(1,A); Insert(2,B); Lookup(1); Insert(3,C)` leaves key 2 missing
(it was least recently used when the full cache took key 3, since the
hit on key 1 promoted that entry) while keys 1 and 3 hit with values
`A` and `C`. -/
theorem lru_eviction_scenario (A B C : Nat) :
    (lookup (insert (lookup (insert (insert (init Nat Nat 2) 1 A) 2 B) 1).2 3 C) 2).1
        = none ∧
    (lookup ((lookup (insert (lookup (insert (insert (init Nat Nat 2) 1 A) 2 B) 1).2 3 C) 2).2) 1).1
        = some A ∧
    (lookup ((lookup ((lookup (insert (lookup (insert (insert (init Nat Nat 2) 1 A) 2 B) 1).2 3 C) 2).2) 1).2) 3).1
        = some C := by
  refine ⟨rfl, rfl, rfl⟩

/-- One call of the public mutating interface of `cvmfs::LruCache`:
`insert`, `lookup` (whose returned value is discarded here, only the state
matters), `drop`, `resize`. -/
inductive Op (K V : Type) where
  | ins (key : K) (value : V)
  | get (key : K)
  | clear
  | setSize (newSize : Nat)

/-- Apply one interface call to the cache state. -/
def applyOp (s : State K V) : Op K V → State K V
  | .ins k v => insert s k v
  | .get k => (lookup s k).2
  | .clear => dropAll s
  | .setSize n => resize s n

/-- Run a call sequence from a starting state. -/
def run (s : State K V) (ops : List (Op K V)) : State K V :=
  ops.foldl applyOp s

/-- The assertion guarding each call in the source: `resize` requires
`newSize > 0`; the other calls are unguarded. -/
def ValidOp : Op K V → Prop
  | .setSize n => 0 < n
  | _ => True

instance (op : Op K V) : Decidable (ValidOp op) := by
  cases op <;> (unfold ValidOp; infer_instance)

theorem length_eraseP_of_find {α : Type} {p : α → Bool} {l : List α}
    (h : (l.find? p).isSome) : (l.eraseP p).length + 1 = l.length := by
  induction l with
  | nil => simp [List.find?] at h
  | cons x xs ih =>
    cases hpx : p x with
    | true => simp [List.eraseP_cons, hpx]
    | false =>
      simp only [List.find?_cons, hpx] at h
      simp only [List.eraseP_cons, hpx, cond_false, List.length_cons]
      rw [ih h]

theorem resizeLoop_length (n : Nat) (l : List (K × V)) :
    (resizeLoop n l : List (K × V)).length = min l.length n := by
  induction l with
  | nil => simp [resizeLoop]
  | cons p rest ih =>
    rw [resizeLoop]
    split
    · rename_i hgt
      simp only [List.length_cons] at hgt ⊢
      omega
    · rename_i hle
      simp only [List.length_cons, not_lt] at hle ⊢
      omega

/-- The representation invariant tied to the constructor assertion: a
positive capacity bounding the number of live entries. -/
def Inv (s : State K V) : Prop :=
  0 < s.maxSize ∧ s.entries.length ≤ s.maxSize

theorem inv_applyOp (s : State K V) (op : Op K V) (hs : Inv s)
    (hop : ValidOp op) : Inv (applyOp s op) := by
  obtain ⟨hpos, hlen⟩ := hs
  cases op with
  | ins k v =>
    show Inv (insert s k v)
    unfold insert
    split
    · rename_i hfound
      have := length_eraseP_of_find hfound
      exact ⟨hpos, by simp only [touchWith, List.length_append, List.length_cons,
        List.length_nil]; omega⟩
    · split
      · rename_i hfull
        unfold isFull at hfull
        refine ⟨hpos, ?_⟩
        simp only [insertNewEntry, deleteOldestEntry, List.length_append,
          List.length_tail, List.length_cons, List.length_nil]
        omega
      · rename_i hfull
        unfold isFull at hfull
        refine ⟨hpos, ?_⟩
        simp only [insertNewEntry, List.length_append, List.length_cons,
          List.length_nil]
        omega
  | get k =>
    show Inv (lookup s k).2
    unfold lookup
    split
    · rename_i p hfound
      have : (s.entries.find? (fun q => q.1 = k)).isSome := by rw [hfound]; rfl
      have := length_eraseP_of_find this
      exact ⟨hpos, by simp only [touchWith, List.length_append, List.length_cons,
        List.length_nil]; omega⟩
    · exact ⟨hpos, hlen⟩
  | clear =>
    refine ⟨hpos, ?_⟩
    show (dropAll s).entries.length ≤ (dropAll s).maxSize
    simp [dropAll]
  | setSize n =>
    refine ⟨hop, ?_⟩
    show (resizeLoop n s.entries).length ≤ n
    rw [resizeLoop_length]
    omega

theorem run_inv (ops : List (Op K V)) (s : State K V) (hs : Inv s)
    (hops : ∀ op ∈ ops, ValidOp op) : Inv (run s ops) := by
  induction ops generalizing s with
  | nil => exact hs
  | cons op rest ih =>
    exact ih (applyOp s op) (inv_applyOp s op hs (hops op (List.mem_cons_self op rest)))
      (fun o ho => hops o (List.mem_cons_of_mem op ho))

/-- C9: a cache built with positive capacity never holds more entries than
its current capacity, across every valid sequence of insert, lookup, drop
and resize calls; moreover an insert of an absent key into a full cache
evicts exactly one entry before inserting (the entry count is unchanged),
and a resize evicts least recently used entries until the count fits the
new capacity before adopting it. -/
theorem lru_capacity_invariant (m k v n : Nat) (hm : 0 < m) (hn : 0 < n)
    (ops : List (Op Nat Nat)) (hops : ∀ op ∈ ops, ValidOp op) :
    (run (init Nat Nat m) ops).entries.length ≤ (run (init Nat Nat m) ops).maxSize ∧
    (∀ s : State Nat Nat, 0 < s.maxSize → s.entries.length = s.maxSize →
      lookupCache s k = none →
      (insert s k v).entries.length = s.entries.length) ∧
    (∀ s : State Nat Nat, (resize s n).maxSize = n ∧
      (resize s n).entries.length = min s.entries.length n) := by
  refine ⟨(run_inv ops _ ⟨hm, by simp [init]⟩ hops).2, ?_, ?_⟩
  · intro s hpos hfull hmiss
    have hnone : s.entries.find? (fun p => p.1 = k) = none := by
      unfold lookupCache at hmiss
      exact Option.map_eq_none.mp hmiss
    unfold insert
    rw [hnone]
    rw [if_neg (by simp)]
    rw [if_pos (by unfold isFull; omega)]
    simp only [insertNewEntry, deleteOldestEntry, List.length_append,
      List.length_tail, List.length_cons, List.length_nil]
    omega
  · intro s
    exact ⟨rfl, resizeLoop_length n s.entries⟩

/-- C9 witness: capacity 1, a sequence exercising all four call kinds. -/
theorem lru_capacity_invariant_witness :
    (run (init Nat Nat 1) [Op.ins 4 10, Op.ins 5 11, Op.get 5, Op.clear,
        Op.setSize 3]).entries.length
      ≤ (run (init Nat Nat 1) [Op.ins 4 10, Op.ins 5 11, Op.get 5, Op.clear,
        Op.setSize 3]).maxSize ∧
    (∀ s : State Nat Nat, 0 < s.maxSize → s.entries.length = s.maxSize →
      lookupCache s 9 = none →
      (insert s 9 7).entries.length = s.entries.length) ∧
    (∀ s : State Nat Nat, (resize s 2).maxSize = 2 ∧
      (resize s 2).entries.length = min s.entries.length 2) :=
  lru_capacity_invariant 1 9 7 2 (by decide) (by decide)
    [Op.ins 4 10, Op.ins 5 11, Op.get 5, Op.clear, Op.setSize 3] (by decide)

end LruCache
